import Mathlib

set_option autoImplicit false

namespace Tibber

/-!
Shallow embedding of the Tibber consumption collector
(`tibber_collector.py` / `tibber_collector_sqlite.py`).

Timestamps are modelled as whole hours since the Unix epoch (`Int`);
the data's resolution is hourly, and both collectors treat timestamps as
UTC instants (naive inputs are reinterpreted as UTC, SQLite's date
functions normalise offset-suffixed strings to UTC).  Numeric SQL values
(`DOUBLE`/`REAL`, nullable) are modelled as `Option ℚ`.
-/

/-- Civil-calendar conversion: days since 1970-01-01 of the date `(y, m, d)`
(proleptic Gregorian).  Embeds the date arithmetic that the storage layer's
`DATE`/`strftime` functions perform on ISO-8601 UTC instants. -/
def daysFromCivil (y m d : Int) : Int :=
  let y1 := if m ≤ 2 then y - 1 else y
  let era := Int.ediv (if 0 ≤ y1 then y1 else y1 - 399) 400
  let yoe := y1 - era * 400
  let mp := Int.emod (m + 9) 12
  let doy := Int.ediv (153 * mp + 2) 5 + d - 1
  let doe := yoe * 365 + Int.ediv yoe 4 - Int.ediv yoe 100 + doy
  era * 146097 + doe - 719468

/-- Inverse civil-calendar conversion: the `(year, month, day)` of a count of
days since 1970-01-01 (proleptic Gregorian). -/
def civilFromDays (z0 : Int) : Int × Int × Int :=
  let z := z0 + 719468
  let era := Int.ediv (if 0 ≤ z then z else z - 146096) 146097
  let doe := z - era * 146097
  let yoe := Int.ediv (doe - Int.ediv doe 1460 + Int.ediv doe 36524 - Int.ediv doe 146096) 365
  let y := yoe + era * 400
  let doy := doe - (365 * yoe + Int.ediv yoe 4 - Int.ediv yoe 100)
  let mp := Int.ediv (5 * doy + 2) 153
  let d := doy - Int.ediv (153 * mp + 2) 5 + 1
  let m := if mp < 10 then mp + 3 else mp - 9
  (if m ≤ 2 then y + 1 else y, m, d)

/-- Hours-since-epoch of midnight UTC on the date `(y, m, d)`. -/
def hoursOfDate (y m d : Int) : Int := 24 * daysFromCivil y m d

/-- Day number of the instant `t` (hours since epoch): embeds
`CAST(from_time AS DATE)` (DuckDB) / `DATE(from_time)` (SQLite). -/
def dayOf (t : Int) : Int := Int.ediv t 24

/-- Calendar year of the instant `t`: embeds `EXTRACT(YEAR FROM from_time)` /
`strftime('%Y', from_time)`. -/
def yearOf (t : Int) : Int := (civilFromDays (dayOf t)).1

/-- Calendar month of the instant `t`: embeds `EXTRACT(MONTH FROM from_time)` /
`strftime('%m', from_time)`. -/
def monthOf (t : Int) : Int := (civilFromDays (dayOf t)).2.1

/-- One row of `hourly_consumption`, and equally one fetched edge's `node`
(`save_data` renames `from`/`to`/`consumptionUnit`/`unitPrice`/`unitPriceVAT`
to the column names without changing values). -/
structure Record where
  from_time : Int
  to_time : Int
  consumption : Option ℚ
  consumption_unit : Option String
  cost : Option ℚ
  unit_price : Option ℚ
  unit_price_vat : Option ℚ
  currency : Option String
deriving DecidableEq

/-- One row of `daily_consumption`; the `date` field is the day number. -/
structure DailyRow where
  date : Int
  total_consumption : Option ℚ
  total_cost : Option ℚ
  avg_unit_price : Option ℚ
  currency : Option String
deriving DecidableEq

/-- One row of `monthly_consumption`. -/
structure MonthlyRow where
  year : Int
  month : Int
  total_consumption : Option ℚ
  total_cost : Option ℚ
  avg_unit_price : Option ℚ
  currency : Option String
deriving DecidableEq

/-- The database: the three tables, each a list of rows. -/
structure Store where
  hourly : List Record
  daily : List DailyRow
  monthly : List MonthlyRow
deriving DecidableEq

/-- The primary key of `hourly_consumption`. -/
def recordKey (r : Record) : Int × Int := (r.from_time, r.to_time)

/-- The primary key of `monthly_consumption`. -/
def monthKey (r : MonthlyRow) : Int × Int := (r.year, r.month)

/-- Keyed `INSERT OR REPLACE` of a single row: replace the row with the same
key in place, or append when the key is absent. -/
def upsertBy {α κ : Type} [DecidableEq κ] (key : α → κ) (r : α) : List α → List α
  | [] => [r]
  | x :: xs => if key x = key r then r :: xs else x :: upsertBy key r xs

/-- First row with the given key, if any (keyed `SELECT`). -/
def findByKey {α κ : Type} [DecidableEq κ] (key : α → κ) (k : κ) : List α → Option α
  | [] => none
  | x :: xs => if key x = k then some x else findByKey key k xs

/-- `INSERT OR REPLACE` of a whole row set into a table, row by row in list
order. -/
def upsertAll {α κ : Type} [DecidableEq κ] (key : α → κ) (rows : List α)
    (table : List α) : List α :=
  rows.foldl (fun acc r => upsertBy key r acc) table

/-- SQL `SUM` over a nullable column: `NULL` when every input is `NULL`,
otherwise the sum of the non-`NULL` inputs. -/
def sqlSum (l : List (Option ℚ)) : Option ℚ :=
  let vs := l.filterMap id
  if vs = [] then none else some vs.sum

/-- SQL `AVG` over a nullable column: unweighted mean of the non-`NULL`
inputs, `NULL` when there are none. -/
def sqlAvg (l : List (Option ℚ)) : Option ℚ :=
  let vs := l.filterMap id
  if vs = [] then none else some (vs.sum / (vs.length : ℚ))

/-- SQL `MAX` over a nullable text column: greatest non-`NULL` value,
`NULL` when there are none. -/
def sqlMax (l : List (Option String)) : Option String :=
  (l.filterMap id).max?

/-- The records the aggregation queries range over:
`WHERE consumption IS NOT NULL`. -/
def qualifying (hourly : List Record) : List Record :=
  hourly.filter (fun r => r.consumption.isSome)

/-- The daily aggregation row the `GROUP BY DATE(from_time)` query produces
for day `d`. -/
def dailyRowFor (hourly : List Record) (d : Int) : DailyRow :=
  let g := (qualifying hourly).filter (fun r => decide (dayOf r.from_time = d))
  { date := d
    total_consumption := sqlSum (g.map (fun r => r.consumption))
    total_cost := sqlSum (g.map (fun r => r.cost))
    avg_unit_price := sqlAvg (g.map (fun r => r.unit_price))
    currency := sqlMax (g.map (fun r => r.currency)) }

/-- Result set of the daily aggregation `SELECT`: one row per day that has at
least one qualifying record. -/
def recomputeDaily (hourly : List Record) : List DailyRow :=
  (((qualifying hourly).map (fun r => dayOf r.from_time)).dedup).map (dailyRowFor hourly)

/-- The monthly aggregation row the `GROUP BY year, month` query produces for
the month `ym`. -/
def monthlyRowFor (hourly : List Record) (ym : Int × Int) : MonthlyRow :=
  let g := (qualifying hourly).filter
    (fun r => decide ((yearOf r.from_time, monthOf r.from_time) = ym))
  { year := ym.1
    month := ym.2
    total_consumption := sqlSum (g.map (fun r => r.consumption))
    total_cost := sqlSum (g.map (fun r => r.cost))
    avg_unit_price := sqlAvg (g.map (fun r => r.unit_price))
    currency := sqlMax (g.map (fun r => r.currency)) }

/-- Result set of the monthly aggregation `SELECT`. -/
def recomputeMonthly (hourly : List Record) : List MonthlyRow :=
  (((qualifying hourly).map (fun r => (yearOf r.from_time, monthOf r.from_time))).dedup).map
    (monthlyRowFor hourly)

/-- `TibberCollector._update_aggregations`: `INSERT OR REPLACE` the freshly
recomputed daily and monthly result sets into their tables.  Rows of buckets
absent from the recomputation are left untouched. -/
def update_aggregations (st : Store) : Store :=
  { st with
    daily := upsertAll DailyRow.date (recomputeDaily st.hourly) st.daily
    monthly := upsertAll monthKey (recomputeMonthly st.hourly) st.monthly }

/-- `TibberCollector.save_data`: empty input is a logged no-op; otherwise
`INSERT OR REPLACE` every record into `hourly_consumption` (in list order)
and then run `_update_aggregations`.  The boolean reports whether
`_update_aggregations` was invoked. -/
def save_data (records : List Record) (st : Store) : Store × Bool :=
  if records = [] then (st, false)
  else
    (update_aggregations
      { st with hourly := upsertAll recordKey records st.hourly }, true)

/-- `MAX(from_time)` over `hourly_consumption`
(`TibberCollector._get_last_timestamp`): `NULL` on an empty table. -/
def get_last_timestamp (hourly : List Record) : Option Int :=
  (hourly.map (fun r => r.from_time)).max?

/-- Range resolution at the head of `TibberCollector.fetch_consumption_data`:
`until` defaults to the current instant; `since` defaults to the maximum
stored `from_time` plus one hour, or to `until` minus 90 days when the store
is empty.  A pure read of the store (`SELECT MAX(from_time)` only). -/
def resolveRange (since? until? : Option Int) (now : Int) (hourly : List Record) :
    Int × Int :=
  let u := match until? with
    | some u => u
    | none => now
  match since? with
  | some s => (s, u)
  | none =>
    match get_last_timestamp hourly with
    | some t => (t + 1, u)
    | none => (u - 90 * 24, u)

/-- One upstream page response: either the expected
`data.viewer.home.consumption` shape (edges plus `pageInfo.hasNextPage`), or a
response missing those fields (the `KeyError` branch). -/
inductive PageResp where
  | malformed : PageResp
  | page : List Record → Bool → PageResp
deriving DecidableEq

/-- `min(first_date, last_date)` of a non-empty page: the from-timestamps of
the page's first and last edge, whichever is older. -/
def oldestEndpoint (e : Record) (es : List Record) : Int :=
  min e.from_time (es.getLastD e).from_time

/-- Pagination loop of `TibberCollector.fetch_consumption_data`, consuming the
upstream's page responses in request order.  Returns the accumulated records
and the number of pages requested.  Per page, in code order: a malformed
response breaks out; an empty edge list breaks out; if the older of the first
and last edge timestamps precedes `since`, the page is filtered to
timestamps at or after `since`, appended, and the loop breaks; otherwise the
page is appended in full and the loop continues exactly when `hasNextPage`
is true. -/
def walkAux (since : Int) : List PageResp → List Record → Nat → List Record × Nat
  | [], acc, n => (acc, n)
  | PageResp.malformed :: _, acc, n => (acc, n + 1)
  | PageResp.page [] _ :: _, acc, n => (acc, n + 1)
  | PageResp.page (e :: es) hasNext :: rest, acc, n =>
    if oldestEndpoint e es < since then
      (acc ++ (e :: es).filter (fun r => decide (since ≤ r.from_time)), n + 1)
    else if hasNext then
      walkAux since rest (acc ++ (e :: es)) (n + 1)
    else
      (acc ++ (e :: es), n + 1)

/-- `TibberCollector.fetch_consumption_data` after range resolution: run the
pagination loop, then apply the final range filter dropping records with
`from` outside `[since, until]`. -/
def fetch_consumption_data (since untl : Int) (pages : List PageResp) : List Record :=
  ((walkAux since pages [] 0).1).filter
    (fun r => decide (since ≤ r.from_time) && decide (r.from_time ≤ untl))

/-- `TibberCollector.collect`: resolve the range, fetch, and hand the fetched
batch to `save_data`. -/
def collect (since? until? : Option Int) (now : Int) (pages : List PageResp)
    (st : Store) : Store :=
  let su := resolveRange since? until? now st.hourly
  (save_data (fetch_consumption_data su.1 su.2 pages) st).1

/-- One attempt's observable outcome inside `TibberCollector._make_request`:
a 200 response, a non-200 status code, or a raised transport exception. -/
inductive Outcome where
  | ok : Outcome
  | status : Nat → Outcome
  | exc : Outcome
deriving DecidableEq

/-- Retry loop of `TibberCollector._make_request` over the per-attempt
outcomes, recording every `time.sleep` duration in order.  A 200 returns the
body at once; 429 and 504 sleep `2 ^ attempt` seconds and retry; any other
status logs and retries with no sleep; an exception logs and sleeps 1 second
unless it occurred on the final attempt.  Outcomes exhausted without a 200
means the loop ended and the function raises. -/
def make_request_go (retries : Nat) : List Outcome → Nat → List Nat → Bool × List Nat
  | [], _, waits => (false, waits)
  | Outcome.ok :: _, _, waits => (true, waits)
  | Outcome.status c :: rest, attempt, waits =>
    if c = 429 ∨ c = 504 then
      make_request_go retries rest (attempt + 1) (waits ++ [2 ^ attempt])
    else
      make_request_go retries rest (attempt + 1) waits
  | Outcome.exc :: rest, attempt, waits =>
    if attempt < retries - 1 then
      make_request_go retries rest (attempt + 1) (waits ++ [1])
    else
      make_request_go retries rest (attempt + 1) waits

/-- `TibberCollector._make_request` with its default `retries = 3`:
`for attempt in range(3)` consumes at most the first three outcomes.  The
boolean is true exactly when some attempt returned a 200 body; the list is
the sequence of sleep durations performed. -/
def make_request (outcomes : List Outcome) : Bool × List Nat :=
  make_request_go 3 (outcomes.take 3) 0 []

/-! Keyed-upsert toolkit: list-level facts about `upsertBy` / `upsertAll`
shared by the merge and aggregation theorems. -/

theorem findByKey_upsertBy_self {α κ : Type} [DecidableEq κ] (key : α → κ) (r : α)
    (l : List α) : findByKey key (key r) (upsertBy key r l) = some r := by
  induction l with
  | nil => simp [upsertBy, findByKey]
  | cons x xs ih =>
    by_cases h : key x = key r
    · simp [upsertBy, findByKey, h]
    · simp [upsertBy, findByKey, h, ih]

theorem findByKey_upsertBy_ne {α κ : Type} [DecidableEq κ] (key : α → κ) (r : α)
    (k : κ) (l : List α) (h : key r ≠ k) :
    findByKey key k (upsertBy key r l) = findByKey key k l := by
  induction l with
  | nil => simp [upsertBy, findByKey, h]
  | cons x xs ih =>
    by_cases hx : key x = key r
    · simp [upsertBy, findByKey, hx, h]
    · simp only [upsertBy, if_neg hx]
      by_cases hk : key x = k
      · simp [findByKey, hk]
      · simp [findByKey, hk, ih]

theorem mem_keys_upsertBy {α κ : Type} [DecidableEq κ] (key : α → κ) (r : α)
    (k : κ) (l : List α) (h : k ∈ l.map key) :
    k ∈ (upsertBy key r l).map key := by
  induction l with
  | nil => simp at h
  | cons x xs ih =>
    by_cases hx : key x = key r
    · simp only [upsertBy, if_pos hx, List.map_cons, List.mem_cons]
      rcases List.mem_cons.mp h with h1 | h1
      · exact Or.inl (hx ▸ h1)
      · exact Or.inr h1
    · simp only [upsertBy, if_neg hx, List.map_cons, List.mem_cons]
      rcases List.mem_cons.mp h with h1 | h1
      · exact Or.inl h1
      · exact Or.inr (ih h1)

theorem self_mem_keys_upsertBy {α κ : Type} [DecidableEq κ] (key : α → κ) (r : α)
    (l : List α) : key r ∈ (upsertBy key r l).map key := by
  induction l with
  | nil => simp [upsertBy]
  | cons x xs ih =>
    by_cases hx : key x = key r
    · simp [upsertBy, hx]
    · simp only [upsertBy, if_neg hx, List.map_cons, List.mem_cons]
      exact Or.inr ih

theorem upsertBy_eq_of_find {α κ : Type} [DecidableEq κ] (key : α → κ) (r : α)
    (l : List α) (h : findByKey key (key r) l = some r) : upsertBy key r l = l := by
  induction l with
  | nil => simp [findByKey] at h
  | cons x xs ih =>
    by_cases hx : key x = key r
    · simp only [findByKey, if_pos hx, Option.some.injEq] at h
      simp [upsertBy, hx, h]
    · simp only [findByKey, if_neg hx] at h
      simp [upsertBy, hx, ih h]

theorem upsertBy_upsertBy_same {α κ : Type} [DecidableEq κ] (key : α → κ)
    (r1 r2 : α) (l : List α) (h : key r1 = key r2) :
    upsertBy key r2 (upsertBy key r1 l) = upsertBy key r2 l := by
  induction l with
  | nil => simp [upsertBy, h]
  | cons x xs ih =>
    by_cases hx : key x = key r1
    · simp [upsertBy, hx, h, hx.trans h]
    · have hx2 : ¬ key x = key r2 := fun hc => hx (hc.trans h.symm)
      simp [upsertBy, hx, hx2, ih]

theorem upsertBy_comm_of_mem {α κ : Type} [DecidableEq κ] (key : α → κ)
    (a c : α) (l : List α) (hmem : key a ∈ l.map key) (hne : key a ≠ key c) :
    upsertBy key c (upsertBy key a l) = upsertBy key a (upsertBy key c l) := by
  induction l with
  | nil => simp at hmem
  | cons x xs ih =>
    by_cases hxa : key x = key a
    · have hxc : ¬ key x = key c := fun hc => hne (hxa.symm.trans hc)
      simp [upsertBy, hxa, hxc, Ne.symm hne, hne]
    · by_cases hxc : key x = key c
      · simp [upsertBy, hxa, hxc, hne, Ne.symm hne]
      · have hmem' : key a ∈ xs.map key := by
          rcases List.mem_cons.mp hmem with h1 | h1
          · exact absurd h1.symm hxa
          · exact h1
        simp [upsertBy, hxa, hxc, ih hmem']

theorem keys_mono_upsertAll {α κ : Type} [DecidableEq κ] (key : α → κ)
    (rows : List α) (k : κ) :
    ∀ table : List α, k ∈ table.map key → k ∈ (upsertAll key rows table).map key := by
  induction rows with
  | nil => intro table h; simpa [upsertAll] using h
  | cons r rs ih =>
    intro table h
    have h1 : k ∈ (upsertBy key r table).map key := mem_keys_upsertBy key r k table h
    simpa [upsertAll, List.foldl_cons] using ih (upsertBy key r table) h1

theorem findByKey_upsertAll_not_mem {α κ : Type} [DecidableEq κ] (key : α → κ)
    (rows : List α) (k : κ) (hk : k ∉ rows.map key) :
    ∀ table : List α, findByKey key k (upsertAll key rows table) = findByKey key k table := by
  induction rows with
  | nil => intro table; simp [upsertAll]
  | cons r rs ih =>
    intro table
    have hkr : key r ≠ k := fun hc => hk (by simp [hc])
    have hks : k ∉ rs.map key := fun hc => hk (by simp [hc])
    calc findByKey key k (upsertAll key (r :: rs) table)
        = findByKey key k (upsertAll key rs (upsertBy key r table)) := by
          simp [upsertAll, List.foldl_cons]
      _ = findByKey key k (upsertBy key r table) := ih hks (upsertBy key r table)
      _ = findByKey key k table := findByKey_upsertBy_ne key r k table hkr

theorem findByKey_upsertAll_nodup {α κ : Type} [DecidableEq κ] (key : α → κ)
    (rows : List α) (hnd : (rows.map key).Nodup) (r : α) (hr : r ∈ rows) :
    ∀ table : List α, findByKey key (key r) (upsertAll key rows table) = some r := by
  induction rows with
  | nil => exact absurd hr (List.not_mem_nil r)
  | cons a rs ih =>
    intro table
    have hnd' : (rs.map key).Nodup := (List.nodup_cons.mp (by simpa using hnd)).2
    have hna : key a ∉ rs.map key := (List.nodup_cons.mp (by simpa using hnd)).1
    rcases List.mem_cons.mp hr with h1 | h1
    · subst h1
      calc findByKey key (key r) (upsertAll key (r :: rs) table)
          = findByKey key (key r) (upsertAll key rs (upsertBy key r table)) := by
            simp [upsertAll, List.foldl_cons]
        _ = findByKey key (key r) (upsertBy key r table) :=
            findByKey_upsertAll_not_mem key rs (key r) hna (upsertBy key r table)
        _ = some r := findByKey_upsertBy_self key r table
    · calc findByKey key (key r) (upsertAll key (a :: rs) table)
          = findByKey key (key r) (upsertAll key rs (upsertBy key a table)) := by
            simp [upsertAll, List.foldl_cons]
        _ = some r := ih hnd' h1 (upsertBy key a table)

theorem upsertAll_absorb {α κ : Type} [DecidableEq κ] (key : α → κ)
    (rows : List α) (a : α) (hrow : key a ∈ rows.map key) :
    ∀ table : List α, key a ∈ table.map key →
      upsertAll key rows (upsertBy key a table) = upsertAll key rows table := by
  induction rows with
  | nil => intro table _; simp at hrow
  | cons c rs ih =>
    intro table htab
    by_cases hca : key c = key a
    · have : upsertBy key c (upsertBy key a table) = upsertBy key c table :=
        upsertBy_upsertBy_same key a c table hca.symm
      simp [upsertAll, List.foldl_cons, this]
    · have hrow' : key a ∈ rs.map key := by
        rcases List.mem_cons.mp hrow with h1 | h1
        · exact absurd h1.symm hca
        · exact h1
      have hswap : upsertBy key c (upsertBy key a table) = upsertBy key a (upsertBy key c table) :=
        upsertBy_comm_of_mem key a c table htab (fun hc => hca hc.symm)
      have htab' : key a ∈ (upsertBy key c table).map key :=
        mem_keys_upsertBy key c (key a) table htab
      calc upsertAll key (c :: rs) (upsertBy key a table)
          = upsertAll key rs (upsertBy key c (upsertBy key a table)) := by
            simp [upsertAll, List.foldl_cons]
        _ = upsertAll key rs (upsertBy key a (upsertBy key c table)) := by rw [hswap]
        _ = upsertAll key rs (upsertBy key c table) := ih hrow' (upsertBy key c table) htab'
        _ = upsertAll key (c :: rs) table := by simp [upsertAll, List.foldl_cons]

theorem upsertAll_idem {α κ : Type} [DecidableEq κ] (key : α → κ) (rows : List α) :
    ∀ table : List α, upsertAll key rows (upsertAll key rows table) = upsertAll key rows table := by
  induction rows with
  | nil => intro table; simp [upsertAll]
  | cons a rs ih =>
    intro table
    by_cases hmem : key a ∈ rs.map key
    · have hstep : upsertAll key (a :: rs) (upsertAll key (a :: rs) table)
          = upsertAll key rs (upsertBy key a (upsertAll key rs (upsertBy key a table))) := by
        simp [upsertAll, List.foldl_cons]
      have hkey : key a ∈ (upsertAll key rs (upsertBy key a table)).map key :=
        keys_mono_upsertAll key rs (key a) (upsertBy key a table)
          (self_mem_keys_upsertBy key a table)
      rw [hstep, upsertAll_absorb key rs a hmem _ hkey, ih (upsertBy key a table)]
      simp [upsertAll, List.foldl_cons]
    · have hfind : findByKey key (key a) (upsertAll key rs (upsertBy key a table)) = some a := by
        rw [findByKey_upsertAll_not_mem key rs (key a) hmem (upsertBy key a table)]
        exact findByKey_upsertBy_self key a table
      have heq : upsertBy key a (upsertAll key rs (upsertBy key a table))
          = upsertAll key rs (upsertBy key a table) :=
        upsertBy_eq_of_find key a _ hfind
      calc upsertAll key (a :: rs) (upsertAll key (a :: rs) table)
          = upsertAll key rs (upsertBy key a (upsertAll key rs (upsertBy key a table))) := by
            simp [upsertAll, List.foldl_cons]
        _ = upsertAll key rs (upsertAll key rs (upsertBy key a table)) := by rw [heq]
        _ = upsertAll key rs (upsertBy key a table) := ih (upsertBy key a table)
        _ = upsertAll key (a :: rs) table := by simp [upsertAll, List.foldl_cons]

theorem filter_key_eq_nil {α κ : Type} [DecidableEq κ] (key : α → κ) (k : κ)
    (l : List α) (hk : k ∉ l.map key) :
    l.filter (fun x => decide (key x = k)) = [] := by
  induction l with
  | nil => simp
  | cons x xs ih =>
    have hx : key x ≠ k := fun hc => hk (by simp [hc])
    have hxs : k ∉ xs.map key := fun hc => hk (by simp [hc])
    simp [List.filter_cons, hx, ih hxs]

theorem count_one_upsertBy {α κ : Type} [DecidableEq κ] (key : α → κ) (r : α)
    (l : List α) (hnd : (l.map key).Nodup) :
    ((upsertBy key r l).filter (fun x => decide (key x = key r))).length = 1 := by
  induction l with
  | nil => simp [upsertBy]
  | cons x xs ih =>
    have hhd : key x ∉ xs.map key := (List.nodup_cons.mp (by simpa using hnd)).1
    have htl : (xs.map key).Nodup := (List.nodup_cons.mp (by simpa using hnd)).2
    by_cases hx : key x = key r
    · have : key r ∉ xs.map key := hx ▸ hhd
      simp [upsertBy, hx, List.filter_cons, filter_key_eq_nil key (key r) xs this]
    · simp [upsertBy, hx, List.filter_cons, ih htl]

/-- C9: `save_data` with an empty record list logs and returns without
touching any table and without invoking `_update_aggregations`
(the boolean component records whether the aggregation maintainer ran). -/
theorem save_data_empty_noop (st : Store) : save_data [] st = (st, false) := rfl

/-- C6: merging the same record set twice in succession leaves the whole
store — canonical records, daily aggregates, and monthly aggregates —
exactly as merging it once does, from any starting store. -/
theorem save_data_idem (S : List Record) (st : Store) :
    save_data S ((save_data S st).1) = save_data S st := by
  by_cases hS : S = []
  · simp [save_data, hS]
  · cases st with
    | mk h d m =>
      simp [save_data, hS, update_aggregations, upsertAll_idem]

/-- C10: neither `_update_aggregations` nor `save_data` ever deletes an
aggregate row: a daily bucket (date) or monthly bucket (year, month) present
in the store persists through any refresh and any merge. -/
theorem aggregate_rows_persist (S : List Record) (st : Store) (d : Int)
    (ym : Int × Int) :
    (d ∈ st.daily.map DailyRow.date →
      d ∈ (update_aggregations st).daily.map DailyRow.date
      ∧ d ∈ ((save_data S st).1).daily.map DailyRow.date)
    ∧ (ym ∈ st.monthly.map monthKey →
      ym ∈ (update_aggregations st).monthly.map monthKey
      ∧ ym ∈ ((save_data S st).1).monthly.map monthKey) := by
  constructor
  · intro hd
    refine ⟨keys_mono_upsertAll DailyRow.date _ d st.daily hd, ?_⟩
    by_cases hS : S = []
    · simpa [save_data, hS] using hd
    · simpa [save_data, hS, update_aggregations] using
        keys_mono_upsertAll DailyRow.date _ d st.daily hd
  · intro hm
    refine ⟨keys_mono_upsertAll monthKey _ ym st.monthly hm, ?_⟩
    by_cases hS : S = []
    · simpa [save_data, hS] using hm
    · simpa [save_data, hS, update_aggregations] using
        keys_mono_upsertAll monthKey _ ym st.monthly hm

/-- C10 witness: a store holding one daily row for day 0 and one monthly row
for 1970-01 keeps both buckets across a merge that makes their groups empty. -/
theorem aggregate_rows_persist_witness :
    let r0 : Record := ⟨0, 1, some 1, some "kWh", some 1, some 2, some 1, some "NOK"⟩
    let st : Store := ⟨[r0], [⟨0, some 1, some 1, some 2, some "NOK"⟩],
      [⟨1970, 1, some 1, some 1, some 2, some "NOK"⟩]⟩
    (0 : Int) ∈ ((save_data [⟨0, 1, none, none, none, none, none, none⟩] st).1).daily.map
      DailyRow.date
    ∧ ((1970 : Int), (1 : Int)) ∈
      ((save_data [⟨0, 1, none, none, none, none, none, none⟩] st).1).monthly.map monthKey := by
  intro r0 st
  refine ⟨?_, ?_⟩
  · exact ((aggregate_rows_persist [⟨0, 1, none, none, none, none, none, none⟩] st 0
      (1970, 1)).1 (by decide)).2
  · exact ((aggregate_rows_persist [⟨0, 1, none, none, none, none, none, none⟩] st 0
      (1970, 1)).2 (by decide)).2

/-- C5: merging a batch holding two records with the same `(from_time,
to_time)` key but different consumption values leaves exactly one canonical
record under that key, carrying the later record's values, on any store whose
canonical table satisfies its primary-key constraint. -/
theorem merge_last_write_wins (r1 r2 : Record) (st : Store)
    (hk : recordKey r1 = recordKey r2) (hc : r1.consumption ≠ r2.consumption)
    (hnd : (st.hourly.map recordKey).Nodup) :
    (((save_data [r1, r2] st).1).hourly.filter
        (fun r => decide (recordKey r = recordKey r2))).length = 1
    ∧ findByKey recordKey (recordKey r2) ((save_data [r1, r2] st).1).hourly = some r2 := by
  have hh : ((save_data [r1, r2] st).1).hourly = upsertBy recordKey r2 st.hourly := by
    simp [save_data, update_aggregations, upsertAll, List.foldl_cons,
      upsertBy_upsertBy_same recordKey r1 r2 st.hourly hk]
  rw [hh]
  exact ⟨count_one_upsertBy recordKey r2 st.hourly hnd,
    findByKey_upsertBy_self recordKey r2 st.hourly⟩

/-- C5 witness: re-delivering the interval `[0, 1)` with a revised
consumption leaves a single stored record carrying the revision. -/
theorem merge_last_write_wins_witness :
    let r1 : Record := ⟨0, 1, some 1, some "kWh", some 1, some 2, some 1, some "NOK"⟩
    let r2 : Record := ⟨0, 1, some 5, some "kWh", some 1, some 2, some 1, some "NOK"⟩
    (((save_data [r1, r2] ⟨[], [], []⟩).1).hourly.filter
        (fun r => decide (recordKey r = recordKey r2))).length = 1
    ∧ findByKey recordKey (recordKey r2) ((save_data [r1, r2] ⟨[], [], []⟩).1).hourly = some r2 := by
  intro r1 r2
  exact merge_last_write_wins r1 r2 ⟨[], [], []⟩ (by decide) (by decide) (by decide)

/-- C3: with no explicit `since`, resolution yields the maximum stored
`from_time` plus one hour when storage is non-empty, and `until` minus 90
days when storage is empty; concretely, empty storage with
`until = 2024-03-10T00:00:00Z` yields `since = 2023-12-11T00:00:00Z`.
Resolution is embedded as a pure function of the store (its only storage
access is the `SELECT MAX(from_time)` read in `_get_last_timestamp`). -/
theorem resolve_since_default :
    (∀ (h : List Record) (T u now : Int), get_last_timestamp h = some T →
      (resolveRange none (some u) now h).1 = T + 1)
    ∧ (∀ (h : List Record) (u now : Int), get_last_timestamp h = none →
      (resolveRange none (some u) now h).1 = u - 90 * 24)
    ∧ resolveRange none (some (hoursOfDate 2024 3 10)) 0 []
        = (hoursOfDate 2023 12 11, hoursOfDate 2024 3 10) := by
  refine ⟨?_, ?_, ?_⟩
  · intro h T u now hT
    simp [resolveRange, hT]
  · intro h u now hT
    simp [resolveRange, hT]
  · decide

/-- C3 witness: a store whose newest record starts at hour 7 resolves to
`since = 8`; an empty store with `until = 100` resolves to `since = -2060`. -/
theorem resolve_since_default_witness :
    (resolveRange none (some 100) 0 [⟨7, 8, none, none, none, none, none, none⟩]).1 = 7 + 1
    ∧ (resolveRange none (some 100) 0 []).1 = 100 - 90 * 24 := by
  exact ⟨resolve_since_default.1 [⟨7, 8, none, none, none, none, none, none⟩] 7 100 0 (by decide),
    resolve_since_default.2.1 [] 100 0 (by decide)⟩

/-- C4 counterexample: a 500 response on the first attempt is followed by an
immediate retry — the recorded sleep list of the run is empty, so no "short
fixed delay" separates the failure from the retry (the retry then succeeds,
first component `true`). -/
theorem transport_no_delay_counterexample :
    (make_request [Outcome.status 500, Outcome.ok]).1 = true
    ∧ (make_request [Outcome.status 500, Outcome.ok]).2 = ([] : List Nat) := by
  exact ⟨rfl, rfl⟩

/-- C4 amended: `_make_request` makes up to 3 attempts; a 200 returns
immediately; a 429 or 504 at attempt `k` sleeps `2 ^ k` before the next
attempt; any other failure status is logged and retried with no delay; a
transport exception is retried after a fixed 1-second delay except after the
final attempt; exhausting the attempts fails. -/
theorem transport_retry_behavior (R : Nat) (rest : List Outcome) (attempt : Nat)
    (waits : List Nat) (c : Nat) :
    make_request_go R (Outcome.ok :: rest) attempt waits = (true, waits)
    ∧ (c = 429 ∨ c = 504 →
        make_request_go R (Outcome.status c :: rest) attempt waits
          = make_request_go R rest (attempt + 1) (waits ++ [2 ^ attempt]))
    ∧ (¬ (c = 429 ∨ c = 504) →
        make_request_go R (Outcome.status c :: rest) attempt waits
          = make_request_go R rest (attempt + 1) waits)
    ∧ (attempt < R - 1 →
        make_request_go R (Outcome.exc :: rest) attempt waits
          = make_request_go R rest (attempt + 1) (waits ++ [1]))
    ∧ (¬ attempt < R - 1 →
        make_request_go R (Outcome.exc :: rest) attempt waits
          = make_request_go R rest (attempt + 1) waits)
    ∧ make_request_go R [] attempt waits = (false, waits)
    ∧ make_request (Outcome.status c :: Outcome.status c :: Outcome.status c :: rest)
        = make_request_go 3 [Outcome.status c, Outcome.status c, Outcome.status c] 0 [] := by
  refine ⟨rfl, ?_, ?_, ?_, ?_, rfl, ?_⟩
  · intro h
    simp [make_request_go, h]
  · intro h
    simp [make_request_go, h]
  · intro h
    simp [make_request_go, h]
  · intro h
    simp [make_request_go, h]
  · simp [make_request]

/-- C4 witness: the four retry branches at concrete attempts — 429 at
attempt 0 waits `2 ^ 0`, 500 at attempt 0 waits nothing, an exception at
attempt 0 waits 1, an exception at the final attempt waits nothing. -/
theorem transport_retry_behavior_witness :
    make_request_go 3 [Outcome.status 429] 0 [] = make_request_go 3 [] 1 ([] ++ [2 ^ 0])
    ∧ make_request_go 3 [Outcome.status 500] 0 [] = make_request_go 3 [] 1 []
    ∧ make_request_go 3 [Outcome.exc] 0 [] = make_request_go 3 [] 1 ([] ++ [1])
    ∧ make_request_go 3 [Outcome.exc] 2 [] = make_request_go 3 [] 3 [] := by
  exact ⟨(transport_retry_behavior 3 [] 0 [] 429).2.1 (Or.inl rfl),
    (transport_retry_behavior 3 [] 0 [] 500).2.2.1 (by decide),
    (transport_retry_behavior 3 [] 0 [] 429).2.2.2.1 (by decide),
    (transport_retry_behavior 3 [] 2 [] 429).2.2.2.2.1 (by decide)⟩

/-- C8: every record in the batch returned by
`fetch_consumption_data` has its from-timestamp inside `[since, until]` —
the final filter drops anything outside. -/
theorem fetch_within_range (since untl : Int) (pages : List PageResp) (r : Record)
    (hr : r ∈ fetch_consumption_data since untl pages) :
    since ≤ r.from_time ∧ r.from_time ≤ untl := by
  have h := (List.mem_filter.mp hr).2
  simpa [Bool.and_eq_true, decide_eq_true_iff] using h

/-- C8 witness: the record at hour 5 returned for the range `[3, 7]` indeed
lies inside it. -/
theorem fetch_within_range_witness :
    (3 : Int) ≤ (⟨5, 6, some 1, none, none, none, none, none⟩ : Record).from_time
    ∧ (⟨5, 6, some 1, none, none, none, none, none⟩ : Record).from_time ≤ 7 := by
  exact fetch_within_range 3 7 [PageResp.page [⟨5, 6, some 1, none, none, none, none, none⟩] false]
    ⟨5, 6, some 1, none, none, none, none, none⟩ (by decide)

/-- C2 counterexample: a non-monotone page `[5, 1, 5]` (from-timestamps) with
`since = 3` and `hasNextPage = true`.  The oldest from-timestamp present in
the page is 1, which precedes `since`, yet the walker — which only inspects
the first and last edges — appends the page unfiltered (the record at hour 1
is kept) and requests a second page instead of stopping. -/
theorem walk_oldest_counterexample :
    let a : Record := ⟨5, 6, some 1, none, none, none, none, none⟩
    let b : Record := ⟨1, 2, some 1, none, none, none, none, none⟩
    let c : Record := ⟨5, 6, some 2, none, none, none, none, none⟩
    let pages := [PageResp.page [a, b, c] true,
      PageResp.page [⟨0, 1, none, none, none, none, none, none⟩] false]
    (([a, b, c].map Record.from_time).min? = some 1 ∧ (1 : Int) < 3)
    ∧ walkAux 3 pages [] 0 = ([a, b, c], 2)
    ∧ (walkAux 3 pages [] 0).2 ≠ 1
    ∧ b ∈ (walkAux 3 pages [] 0).1 := by
  exact ⟨⟨by decide, by decide⟩, by decide, by decide, by decide⟩

/-- C2 amended: if the older of the first and last from-timestamps of a
non-empty page (which is the oldest timestamp present whenever the page is
chronologically monotone) precedes `since`, the walker appends only that
page's records with from-timestamp at or after `since` and stops after this
page, regardless of `hasNextPage`. -/
theorem walk_page_terminates (since : Int) (e : Record) (es : List Record)
    (hasNext : Bool) (rest : List PageResp) (acc : List Record) (n : Nat)
    (h : oldestEndpoint e es < since) :
    walkAux since (PageResp.page (e :: es) hasNext :: rest) acc n
      = (acc ++ (e :: es).filter (fun r => decide (since ≤ r.from_time)), n + 1) := by
  simp [walkAux, h]

/-- C2 amended witness: a page reaching back to hour 2 with `since = 3` and
`hasNextPage = true` is filtered and terminates the walk at one page. -/
theorem walk_page_terminates_witness :
    walkAux 3 [PageResp.page [⟨4, 5, none, none, none, none, none, none⟩,
        ⟨2, 3, none, none, none, none, none, none⟩] true, PageResp.malformed] [] 0
      = ([] ++ [⟨4, 5, none, none, none, none, none, none⟩,
          ⟨2, 3, none, none, none, none, none, none⟩].filter
            (fun r => decide ((3 : Int) ≤ r.from_time)), 0 + 1) := by
  exact walk_page_terminates 3 ⟨4, 5, none, none, none, none, none, none⟩
    [⟨2, 3, none, none, none, none, none, none⟩] true [PageResp.malformed] [] 0 (by decide)

/-- Page response built from an edge list and a `hasNextPage` flag. -/
def toPage (p : List Record × Bool) : PageResp := PageResp.page p.1 p.2

/-- A page on which the loop appends everything and continues: non-empty,
`hasNextPage` true, and the first/last-edge minimum not before `since`. -/
def continuingPage (since : Int) (p : List Record × Bool) : Prop :=
  match p with
  | ([], _) => False
  | (e :: es, hasNext) => hasNext = true ∧ ¬ oldestEndpoint e es < since

theorem walk_continuing_append (since : Int) (good : List (List Record × Bool))
    (hg : ∀ p ∈ good, continuingPage since p) (rest : List PageResp) :
    ∀ (acc : List Record) (n : Nat),
      walkAux since (good.map toPage ++ rest) acc n
        = walkAux since rest (acc ++ (good.map Prod.fst).flatten) (n + good.length) := by
  induction good with
  | nil =>
    intro acc n
    simp
  | cons p ps ih =>
    intro acc n
    obtain ⟨es, hn⟩ := p
    cases es with
    | nil =>
      exact absurd (hg ([], hn) (by simp)) (by simp [continuingPage])
    | cons e es' =>
      have hc := hg (e :: es', hn) (by simp)
      simp only [continuingPage] at hc
      obtain ⟨hnext, hold⟩ := hc
      subst hnext
      have hg' : ∀ p ∈ ps, continuingPage since p := fun p hp => hg p (by simp [hp])
      have hstep : walkAux since ((toPage (e :: es', true)) :: (ps.map toPage ++ rest)) acc n
          = walkAux since (ps.map toPage ++ rest) (acc ++ (e :: es')) (n + 1) := by
        simp [toPage, walkAux, hold]
      calc walkAux since (((e :: es', true) :: ps).map toPage ++ rest) acc n
          = walkAux since (ps.map toPage ++ rest) (acc ++ (e :: es')) (n + 1) := hstep
        _ = walkAux since rest ((acc ++ (e :: es')) ++ (ps.map Prod.fst).flatten)
              ((n + 1) + ps.length) := ih hg' (acc ++ (e :: es')) (n + 1)
        _ = walkAux since rest (acc ++ (((e :: es', true) :: ps).map Prod.fst).flatten)
              (n + (((e :: es', true) :: ps)).length) := by
            congr 1
            · simp [List.append_assoc]
            · simp only [List.length_cons]
              omega

/-- C7: when the walk hits a malformed page response after any number of
regular pages, it stops requesting pages at once (exactly one request past
the good pages), returns the records accumulated from the previous pages,
and `collect` passes that partial batch — range-filtered — to the merge
step instead of failing the run. -/
theorem malformed_truncates_and_merges (since untl now : Int)
    (good : List (List Record × Bool)) (rest : List PageResp) (st : Store)
    (hg : ∀ p ∈ good, continuingPage since p) :
    walkAux since (good.map toPage ++ PageResp.malformed :: rest) [] 0
      = ((good.map Prod.fst).flatten, good.length + 1)
    ∧ collect (some since) (some untl) now (good.map toPage ++ PageResp.malformed :: rest) st
      = (save_data (((good.map Prod.fst).flatten).filter
          (fun r => decide (since ≤ r.from_time) && decide (r.from_time ≤ untl))) st).1 := by
  have hw := walk_continuing_append since good hg (PageResp.malformed :: rest) [] 0
  constructor
  · rw [hw]
    simp [walkAux]
  · simp [collect, resolveRange, fetch_consumption_data, hw, walkAux]

/-- C7 witness: one good page of a single record at hour 5, then a malformed
response and a further (never-requested) page: the walk returns the one
record after two requests, and `collect` merges the filtered batch. -/
theorem malformed_truncates_and_merges_witness :
    let e : Record := ⟨5, 6, some 1, none, none, none, none, none⟩
    let pages := [([e], true)].map toPage ++ PageResp.malformed :: [PageResp.page [e] true]
    walkAux 3 pages [] 0 = (([([e], true)].map Prod.fst).flatten, 1 + 1)
    ∧ collect (some 3) (some 7) 0 pages ⟨[], [], []⟩
      = (save_data ((([([e], true)].map Prod.fst).flatten).filter
          (fun r => decide ((3 : Int) ≤ r.from_time) && decide (r.from_time ≤ 7))) ⟨[], [], []⟩).1 := by
  intro e pages
  exact malformed_truncates_and_merges 3 7 0 [([e], true)] [PageResp.page [e] true] ⟨[], [], []⟩
    (by
      intro p hp
      have hp' : p = ([e], true) := by simpa using hp
      subst hp'
      exact ⟨rfl, by decide⟩)

theorem recomputeDaily_keys_nodup (h : List Record) :
    ((recomputeDaily h).map DailyRow.date).Nodup := by
  have hid : DailyRow.date ∘ dailyRowFor h = id := funext fun d => rfl
  have heq : (recomputeDaily h).map DailyRow.date
      = ((qualifying h).map (fun r => dayOf r.from_time)).dedup := by
    rw [recomputeDaily, List.map_map, hid, List.map_id]
  rw [heq]
  exact List.nodup_dedup _

theorem recomputeMonthly_keys_nodup (h : List Record) :
    ((recomputeMonthly h).map monthKey).Nodup := by
  have hid : monthKey ∘ monthlyRowFor h = id := funext fun ym => rfl
  have heq : (recomputeMonthly h).map monthKey
      = ((qualifying h).map (fun r => (yearOf r.from_time, monthOf r.from_time))).dedup := by
    rw [recomputeMonthly, List.map_map, hid, List.map_id]
  rw [heq]
  exact List.nodup_dedup _

/-- C1 counterexample: run 1 merges an interval with consumption 1; run 2
(a successful fetch+merge+refresh) re-delivers the same interval with its
consumption revised to null.  The fresh recomputation over the final
canonical records is empty, yet the stored daily and monthly tables still
hold the bucket rows from run 1 — the stored aggregates are not a pure
function of the canonical record set. -/
theorem aggregate_reconcile_counterexample :
    let r1 : Record := ⟨0, 1, some 1, some "kWh", some 1, some 2, some 1, some "NOK"⟩
    let r1n : Record := ⟨0, 1, none, some "kWh", none, none, none, some "NOK"⟩
    let st1 := collect (some 0) (some 10) 0 [PageResp.page [r1] false] ⟨[], [], []⟩
    let st2 := collect (some 0) (some 10) 0 [PageResp.page [r1n] false] st1
    st2.daily ≠ recomputeDaily st2.hourly
    ∧ st2.monthly ≠ recomputeMonthly st2.hourly
    ∧ recomputeDaily st2.hourly = []
    ∧ st2.daily.map DailyRow.date = [0]
    ∧ st2.monthly.map monthKey = [(1970, 1)] := by
  exact ⟨by decide, by decide, by decide, by decide, by decide⟩

/-- C1 amended: after every merge of a non-empty batch, the stored aggregates
agree exactly with a fresh recomputation on every live bucket — each daily or
monthly row of the recomputation over the current canonical records is stored
under its key — but a stored row whose bucket has no qualifying canonical
records left may persist from an earlier run. -/
theorem aggregates_agree_on_live_buckets (S : List Record) (st : Store)
    (hS : S ≠ []) :
    (∀ row ∈ recomputeDaily ((save_data S st).1).hourly,
      findByKey DailyRow.date row.date ((save_data S st).1).daily = some row)
    ∧ (∀ row ∈ recomputeMonthly ((save_data S st).1).hourly,
      findByKey monthKey (monthKey row) ((save_data S st).1).monthly = some row) := by
  cases st with
  | mk h d m =>
    have hs : (save_data S ⟨h, d, m⟩).1
        = ⟨upsertAll recordKey S h,
           upsertAll DailyRow.date (recomputeDaily (upsertAll recordKey S h)) d,
           upsertAll monthKey (recomputeMonthly (upsertAll recordKey S h)) m⟩ := by
      simp [save_data, hS, update_aggregations]
    rw [hs]
    constructor
    · intro row hrow
      exact findByKey_upsertAll_nodup DailyRow.date _
        (recomputeDaily_keys_nodup _) row hrow d
    · intro row hrow
      exact findByKey_upsertAll_nodup monthKey _
        (recomputeMonthly_keys_nodup _) row hrow m

/-- C1 amended witness: after merging one record at hour 0 into an empty
store, the recomputed daily row for day 0 and monthly row for 1970-01 are
stored under their keys. -/
theorem aggregates_agree_on_live_buckets_witness :
    let r1 : Record := ⟨0, 1, some 1, some "kWh", some 1, some 2, some 1, some "NOK"⟩
    let st1 := (save_data [r1] ⟨[], [], []⟩).1
    findByKey DailyRow.date (dailyRowFor st1.hourly 0).date st1.daily
      = some (dailyRowFor st1.hourly 0)
    ∧ findByKey monthKey (monthKey (monthlyRowFor st1.hourly (1970, 1))) st1.monthly
      = some (monthlyRowFor st1.hourly (1970, 1)) := by
  intro r1 st1
  exact ⟨(aggregates_agree_on_live_buckets [r1] ⟨[], [], []⟩ (by decide)).1
      (dailyRowFor st1.hourly 0) (List.Mem.head _),
    (aggregates_agree_on_live_buckets [r1] ⟨[], [], []⟩ (by decide)).2
      (monthlyRowFor st1.hourly (1970, 1)) (List.Mem.head _)⟩

end Tibber
